import Mathlib

/-!
Verification development for `src/examples/AudioNodeDev/RackNode.cpp`
(the `AudioNode` / `AudioNodeProcessor` single-block dataflow scheduler).

The C++ code is shallowly embedded:
* `AudioBuffer` models the JUCE multi-channel sample buffer through exactly the
  operations the scheduler uses (`clear`, `addFrom`, `copyFrom`, per-sample
  read/write).  Samples are modelled as rationals; the claims under study are
  structural (which cells are written and with which source expression), so no
  floating-point reasoning is required.
* `AudioNode` is the node graph.  Nodes are held by `std::unique_ptr` in the
  source, so the heap structure is a finite ownership tree; a node's identity
  (its address) corresponds to its position (`NodePath`) in that tree.
* The scheduler state `Sched` maps each node position to the per-node mutable
  state (`hasBeenProcessed`, owned buffers, oscillator position).  A ghost
  field `processCount` counts invocations of `AudioNode::process()` so that
  "processed exactly once" claims can be stated.
-/

abbrev Sample : Type := Rat

/-- One timestamped MIDI event (opaque payload); the core never constructs one. -/
structure MidiEvent where
  time : Nat
  payload : Nat
deriving DecidableEq

/-- Model of `juce::MidiBuffer`: a list of events, supporting `clear` and append. -/
abbrev MidiBuffer : Type := List MidiEvent

/-- Model of `juce::AudioBuffer<float>`: an explicit frame count plus the
per-channel sample storage. -/
structure AudioBuffer where
  numSamples : Nat
  channels : List (List Sample)
deriving DecidableEq

/-- Helper: map a function over a list together with the element index,
starting the index at `k`. -/
def listMapIdxAux (f : Nat → α → α) : Nat → List α → List α
  | _, [] => []
  | k, x :: r => f k x :: listMapIdxAux f (k + 1) r

/-- Map a function over a list together with the element index. -/
def listMapIdx (f : Nat → α → α) (l : List α) : List α :=
  listMapIdxAux f 0 l

theorem length_listMapIdxAux (f : Nat → α → α) :
    ∀ (k : Nat) (l : List α), (listMapIdxAux f k l).length = l.length
  | _, [] => rfl
  | k, _ :: r => by
      simp only [listMapIdxAux, List.length_cons, length_listMapIdxAux f (k + 1) r]

theorem length_listMapIdx (f : Nat → α → α) (l : List α) :
    (listMapIdx f l).length = l.length :=
  length_listMapIdxAux f 0 l

theorem getD_listMapIdxAux (f : Nat → α → α) :
    ∀ (k : Nat) (l : List α) (i : Nat) (d : α),
      (listMapIdxAux f k l).getD i d = if i < l.length then f (k + i) (l.getD i d) else d
  | _, [], i, d => by simp [listMapIdxAux]
  | k, x :: r, 0, d => by simp [listMapIdxAux]
  | k, x :: r, i + 1, d => by
      have h := getD_listMapIdxAux f (k + 1) r i d
      simp only [listMapIdxAux, List.getD_cons_succ, List.length_cons, h,
        Nat.succ_lt_succ_iff]
      have harith : k + 1 + i = k + (i + 1) := by omega
      rw [harith]

theorem getD_listMapIdx (f : Nat → α → α) (l : List α) (i : Nat) (d : α) :
    (listMapIdx f l).getD i d = if i < l.length then f i (l.getD i d) else d := by
  simpa using getD_listMapIdxAux f 0 l i d

theorem map_listMapIdxAux (g : α → β) (f : Nat → α → α)
    (hf : ∀ k x, g (f k x) = g x) :
    ∀ (k : Nat) (l : List α), (listMapIdxAux f k l).map g = l.map g
  | _, [] => rfl
  | k, x :: r => by
      simp only [listMapIdxAux, List.map_cons, hf, map_listMapIdxAux g f hf (k + 1) r]

theorem map_listMapIdx (g : α → β) (f : Nat → α → α)
    (hf : ∀ k x, g (f k x) = g x) (l : List α) :
    (listMapIdx f l).map g = l.map g :=
  map_listMapIdxAux g f hf 0 l

/-- `getD` through a `map` whose function sends the default `[]` to `[]`. -/
theorem getD_map_chan (g : List Sample → List Sample) (hg : g [] = []) :
    ∀ (l : List (List Sample)) (i : Nat), (l.map g).getD i [] = g (l.getD i [])
  | [], i => by simp [hg]
  | x :: r, 0 => by simp
  | x :: r, i + 1 => by
      simp only [List.map_cons, List.getD_cons_succ]
      exact getD_map_chan g hg r i

namespace AudioBuffer

/-- `getNumChannels()` -/
def getNumChannels (b : AudioBuffer) : Nat := b.channels.length

/-- `getNumSamples()` -/
def getNumSamples (b : AudioBuffer) : Nat := b.numSamples

/-- Read sample `s` of channel `c` (0 outside the stored data, standing for the
arbitrary value an out-of-range C++ read would produce; all theorems below
constrain indices to be in range). -/
def getSample (b : AudioBuffer) (c s : Nat) : Sample :=
  (b.channels.getD c []).getD s 0

/-- `AudioBuffer(numChannels, numSamples)` / `setSize`: a rectangular buffer. -/
def setSize (numChannels numSamples : Nat) : AudioBuffer :=
  ⟨numSamples, List.replicate numChannels (List.replicate numSamples 0)⟩

/-- `clear()`: zero every stored sample, keeping the shape. -/
def clear (b : AudioBuffer) : AudioBuffer :=
  ⟨b.numSamples, b.channels.map (fun ch => ch.map (fun _ => (0 : Sample)))⟩

/-- Rewrite one channel in place (the shape-preserving write primitive all the
per-channel loops below are built from). -/
def updChannel (b : AudioBuffer) (c : Nat) (f : List Sample → List Sample) : AudioBuffer :=
  ⟨b.numSamples, listMapIdx (fun i ch => if i = c then f ch else ch) b.channels⟩

/-- `addFrom(destChannel, 0, src, srcChannel, 0, n)`: sample-wise accumulation
into one channel. -/
def addFrom (dest : AudioBuffer) (destChannel : Nat) (src : AudioBuffer)
    (srcChannel n : Nat) : AudioBuffer :=
  dest.updChannel destChannel
    (fun ch => listMapIdx (fun s x => if s < n then x + src.getSample srcChannel s else x) ch)

/-- `copyFrom(destChannel, 0, src, srcChannel, 0, n)`: sample-wise overwrite of
one channel. -/
def copyFrom (dest : AudioBuffer) (destChannel : Nat) (src : AudioBuffer)
    (srcChannel n : Nat) : AudioBuffer :=
  dest.updChannel destChannel
    (fun ch => listMapIdx (fun s x => if s < n then src.getSample srcChannel s else x) ch)

/-- Well-formedness: each existing channel stores exactly `numSamples` samples
(true of every buffer the program creates via `setSize`). -/
def wf (b : AudioBuffer) : Prop :=
  ∀ i, i < b.getNumChannels → (b.channels.getD i []).length = b.numSamples

instance (b : AudioBuffer) : Decidable b.wf := by
  unfold wf; infer_instance

theorem getNumChannels_updChannel (b : AudioBuffer) (c : Nat) (f : List Sample → List Sample) :
    (b.updChannel c f).getNumChannels = b.getNumChannels := by
  simp [updChannel, getNumChannels, length_listMapIdx]

theorem numSamples_updChannel (b : AudioBuffer) (c : Nat) (f : List Sample → List Sample) :
    (b.updChannel c f).numSamples = b.numSamples := rfl

theorem getD_channels_updChannel (b : AudioBuffer) (c : Nat) (f : List Sample → List Sample)
    (j : Nat) :
    (b.updChannel c f).channels.getD j [] =
      if j = c ∧ j < b.getNumChannels then f (b.channels.getD j []) else b.channels.getD j [] := by
  simp only [updChannel, getD_listMapIdx, getNumChannels]
  by_cases hj : j < b.channels.length
  · by_cases hc : j = c
    · subst hc
      simp [hj]
    · simp [hj, hc]
  · have hnone : b.channels[j]? = none := by
      rw [List.getElem?_eq_none]
      omega
    simp [hj, List.getD, hnone]

theorem getD_channels_updChannel_ne (b : AudioBuffer) (c : Nat) (f : List Sample → List Sample)
    (j : Nat) (h : j ≠ c) :
    (b.updChannel c f).channels.getD j [] = b.channels.getD j [] := by
  rw [getD_channels_updChannel]
  simp [h]

theorem length_getD_updChannel (b : AudioBuffer) (c : Nat) (f : List Sample → List Sample)
    (hf : ∀ ch, (f ch).length = ch.length) (j : Nat) :
    ((b.updChannel c f).channels.getD j []).length = (b.channels.getD j []).length := by
  rw [getD_channels_updChannel]
  by_cases h : j = c ∧ j < b.getNumChannels
  · obtain ⟨h1, h2⟩ := h
    subst h1
    simp [h2, hf]
  · simp [h]

theorem getSample_updChannel (b : AudioBuffer) (c : Nat) (f : List Sample → List Sample)
    (c' s : Nat) :
    (b.updChannel c f).getSample c' s =
      if c' = c ∧ c' < b.getNumChannels then (f (b.channels.getD c' [])).getD s 0
      else b.getSample c' s := by
  simp only [getSample, getD_channels_updChannel]
  by_cases h : c' = c ∧ c' < b.getNumChannels
  · obtain ⟨h1, h2⟩ := h
    subst h1
    simp [h2]
  · simp [h]

theorem getNumChannels_addFrom (dest src : AudioBuffer) (dc sc n : Nat) :
    (dest.addFrom dc src sc n).getNumChannels = dest.getNumChannels :=
  getNumChannels_updChannel ..

theorem numSamples_addFrom (dest src : AudioBuffer) (dc sc n : Nat) :
    (dest.addFrom dc src sc n).numSamples = dest.numSamples := rfl

theorem length_getD_addFrom (dest src : AudioBuffer) (dc sc n j : Nat) :
    ((dest.addFrom dc src sc n).channels.getD j []).length =
      (dest.channels.getD j []).length :=
  length_getD_updChannel _ _ _ (fun ch => length_listMapIdx _ ch) j

theorem lt_getNumChannels_of_sample (b : AudioBuffer) (c s : Nat)
    (hs : s < (b.channels.getD c []).length) : c < b.getNumChannels := by
  simp only [AudioBuffer.getNumChannels]
  by_contra hge
  have hnil : b.channels.getD c [] = [] := by
    rw [List.getD_eq_default]; omega
  rw [hnil] at hs
  simp at hs

theorem getSample_addFrom (dest src : AudioBuffer) (dc sc n c s : Nat)
    (hs : s < (dest.channels.getD c []).length) :
    (dest.addFrom dc src sc n).getSample c s =
      if c = dc ∧ s < n then dest.getSample c s + src.getSample sc s
      else dest.getSample c s := by
  have hcl := lt_getNumChannels_of_sample dest c s hs
  rw [addFrom, getSample_updChannel]
  by_cases hc : c = dc
  · subst hc
    simp only [hcl, and_self, if_true, and_true, eq_self_iff_true, true_and,
      getD_listMapIdx, hs, if_true]
    by_cases hn : s < n
    · simp [hn, getSample]
    · simp [hn, getSample]
  · simp [hc]

theorem getSample_copyFrom (dest src : AudioBuffer) (dc sc n c s : Nat)
    (hs : s < (dest.channels.getD c []).length) :
    (dest.copyFrom dc src sc n).getSample c s =
      if c = dc ∧ s < n then src.getSample sc s
      else dest.getSample c s := by
  have hcl := lt_getNumChannels_of_sample dest c s hs
  rw [copyFrom, getSample_updChannel]
  by_cases hc : c = dc
  · subst hc
    simp only [hcl, and_self, if_true, and_true, eq_self_iff_true, true_and,
      getD_listMapIdx, hs, if_true]
    by_cases hn : s < n
    · simp [hn, getSample]
    · simp [hn, getSample]
  · simp [hc]

theorem getNumChannels_clear (b : AudioBuffer) : b.clear.getNumChannels = b.getNumChannels := by
  simp [clear, getNumChannels]

theorem numSamples_clear (b : AudioBuffer) : b.clear.numSamples = b.numSamples := rfl

theorem length_getD_clear (b : AudioBuffer) (j : Nat) :
    (b.clear.channels.getD j []).length = (b.channels.getD j []).length := by
  simp only [clear]
  rw [getD_map_chan _ rfl]
  simp

theorem wf_clear (b : AudioBuffer) (h : b.wf) : b.clear.wf := by
  intro i hi
  rw [numSamples_clear, length_getD_clear]
  exact h i (by simpa [getNumChannels_clear] using hi)

theorem wf_updChannel (b : AudioBuffer) (c : Nat) (f : List Sample → List Sample)
    (hf : ∀ ch, (f ch).length = ch.length) (h : b.wf) : (b.updChannel c f).wf := by
  intro i hi
  rw [numSamples_updChannel, length_getD_updChannel b c f hf]
  exact h i (by simpa [getNumChannels_updChannel] using hi)

end AudioBuffer

/-- Properties of a node (`tracktion_engine::AudioNodeProperties`). -/
structure AudioNodeProperties where
  hasAudio : Bool
  hasMidi : Bool
  numberOfChannels : Nat
deriving DecidableEq

/-- The node graph.  The C++ classes hold their inputs through
`std::unique_ptr`, so every graph the program can construct is a finite
ownership tree; a node's identity (its heap address) corresponds to its
position in this tree.

* `sin gen` models `SinAudioNode`; `gen` is the stream of samples the
  oscillator emits (the concrete sine shape is irrelevant to the scheduler).
* `summing inputs` models `SummingAudioNode`.
* `function input fn` models `FunctionAudioNode` with its pure per-sample
  function `fn`.
* `never` models a conforming user subclass of the abstract `AudioNode`
  interface whose `isReadyToProcess()` always returns `false` (the spec's
  stall-detection scenario); its virtual `process` is never invoked. -/
inductive AudioNode where
  | sin (gen : Nat → Sample)
  | summing (inputs : List AudioNode)
  | function (input : AudioNode) (fn : Sample → Sample)
  | never

/-- A node's position in the ownership tree, i.e. its identity. -/
abbrev NodePath : Type := List Nat

/-- The directly owned input nodes, in declaration order
(`getAllInputNodes`' direct children / the private `nodes` vectors). -/
def AudioNode.children : AudioNode → List AudioNode
  | .summing inputs => inputs
  | .function input _ => [input]
  | _ => []

/-- Look up the node at a position of the tree. -/
def subNode : NodePath → AudioNode → Option AudioNode
  | [], n => some n
  | i :: p, n =>
      match n.children[i]? with
      | some c => subNode p c
      | none => none

mutual
/-- `AudioNode::getAllInputNodes()` invoked on the node sitting at `base`:
the returned pointers, rendered as tree positions.  `SummingAudioNode` and
`FunctionAudioNode` push each direct child followed by that child's own
`getAllInputNodes()`; leaves return the empty vector. -/
def getAllInputNodes : AudioNode → NodePath → List NodePath
  | .sin _, _ => []
  | .never, _ => []
  | .function input _, base => (base ++ [0]) :: getAllInputNodes input (base ++ [0])
  | .summing inputs, base => getAllInputNodesList inputs base 0
/-- The loop inside `SummingAudioNode::getAllInputNodes`, child index `i`
onward. -/
def getAllInputNodesList : List AudioNode → NodePath → Nat → List NodePath
  | [], _, _ => []
  | c :: rest, base, i =>
      ((base ++ [i]) :: getAllInputNodes c (base ++ [i])) ++ getAllInputNodesList rest base (i + 1)
end

/-- `std::unique_copy`'s scan after its first element: drop each element equal
to the last element written, keep the rest. -/
def uniqueCopyAux (last : NodePath) : List NodePath → List NodePath
  | [] => []
  | y :: rest => if y = last then uniqueCopyAux last rest else y :: uniqueCopyAux y rest

/-- `std::unique_copy` with the equality predicate used in
`AudioNodeProcessor::AudioNodeProcessor`: keeps the first element of every run
of consecutive duplicates. -/
def uniqueCopy : List NodePath → List NodePath
  | [] => []
  | x :: rest => x :: uniqueCopyAux x rest

/-- The flat scheduling list built in `AudioNodeProcessor`'s constructor:
`node->getAllInputNodes()`, then the root itself, passed through
`std::unique_copy`.  The root sits at path `[]`. -/
def allNodes (g : AudioNode) : List NodePath :=
  uniqueCopy (getAllInputNodes g [] ++ [[]])

mutual
/-- `true` iff the tree is built solely from the three concrete variants of
the source (`SinAudioNode`, `SummingAudioNode`, `FunctionAudioNode`). -/
def noNever : AudioNode → Bool
  | .sin _ => true
  | .never => false
  | .function input _ => noNever input
  | .summing inputs => noNeverList inputs
def noNeverList : List AudioNode → Bool
  | [] => true
  | c :: rest => noNever c && noNeverList rest
end

mutual
/-- `getAudioNodeProperties()`. -/
def AudioNode.getAudioNodeProperties : AudioNode → AudioNodeProperties
  | .sin _ => ⟨true, false, 1⟩
  | .never => ⟨true, false, 1⟩
  | .function input _ => input.getAudioNodeProperties
  | .summing inputs => AudioNode.sumProperties inputs ⟨false, false, 0⟩
/-- The accumulation loop in `SummingAudioNode::getAudioNodeProperties`. -/
def AudioNode.sumProperties : List AudioNode → AudioNodeProperties → AudioNodeProperties
  | [], acc => acc
  | n :: rest, acc =>
      let p := n.getAudioNodeProperties
      AudioNode.sumProperties rest
        ⟨acc.hasAudio || p.hasAudio, acc.hasMidi || p.hasMidi,
         max acc.numberOfChannels p.numberOfChannels⟩
end

mutual
/-- The positions that receive a `prepareToPlay` call when `prepareToPlay` is
invoked on the node at `base`: the node itself, then (for the composite
variants) each child recursively — `SummingAudioNode::prepareToPlay` and
`FunctionAudioNode::prepareToPlay` forward the call to their inputs. -/
def prepareToPlayCalls : AudioNode → NodePath → List NodePath
  | .sin _, base => [base]
  | .never, base => [base]
  | .function input _, base => base :: prepareToPlayCalls input (base ++ [0])
  | .summing inputs, base => base :: prepareToPlayCallsList inputs base 0
/-- The forwarding loop of `SummingAudioNode::prepareToPlay`. -/
def prepareToPlayCallsList : List AudioNode → NodePath → Nat → List NodePath
  | [], _, _ => []
  | c :: rest, base, i =>
      prepareToPlayCalls c (base ++ [i]) ++ prepareToPlayCallsList rest base (i + 1)
end

/-- All `prepareToPlay` calls issued by `AudioNodeProcessor::prepareToPlay`,
which walks the flat list and invokes `node->prepareToPlay(...)` on every
member (each composite member then forwards to its children). -/
def prepareCallTrace (g : AudioNode) : List NodePath :=
  ((allNodes g).map (fun p =>
    match subNode p g with
    | some n => prepareToPlayCalls n p
    | none => [])).flatten

/-- The mutable per-node state (`AudioNode`'s private members).
`processCount` is instrumentation: it counts the calls to the non-virtual
`AudioNode::process()` received in the current block, so that
"processed exactly once per block" can be stated; the C++ object has no such
field and no behaviour depends on it. -/
structure NodeState where
  hasBeenProcessed : Bool
  audioBuffer : AudioBuffer
  midiBuffer : MidiBuffer
  oscPos : Nat
  processCount : Nat

/-- The state of the whole graph: per-position node state. -/
abbrev Sched : Type := NodePath → NodeState

/-- Overwrite the state of the node at `p`. -/
def updateAt (σ : Sched) (p : NodePath) (st : NodeState) : Sched :=
  fun q => if q = p then st else σ q

/-- `SinAudioNode::process`: write the oscillator's successive samples into
channel 0; the MIDI destination is ignored.  Returns the filled buffer, the
events, and the advanced oscillator position. -/
def SinAudioNode.process (buffer : AudioBuffer) (midi : MidiBuffer)
    (gen : Nat → Sample) (pos : Nat) : AudioBuffer × MidiBuffer × Nat :=
  let numSamples := buffer.getNumSamples
  (buffer.updChannel 0
     (fun ch => listMapIdx (fun i x => if i < numSamples then gen (pos + i) else x) ch),
   midi, pos + numSamples)

/-- `SummingAudioNode::process`: for each input buffer, `addFrom` its channels
`0 .. min(destChannels, inputChannels) - 1` into the destination; MIDI is an
explicit TODO in the source and is left untouched. -/
def SummingAudioNode.process (dest : AudioBuffer) (midi : MidiBuffer)
    (inputBuffers : List AudioBuffer) : AudioBuffer × MidiBuffer :=
  let numSamples := dest.getNumSamples
  (inputBuffers.foldl
    (fun d inputBuffer =>
      let numChannels := min d.getNumChannels inputBuffer.getNumChannels
      (List.range numChannels).foldl
        (fun d2 i => d2.addFrom i inputBuffer i numSamples) d)
    dest,
   midi)

/-- `FunctionAudioNode::process`: apply `fn` sample-wise to each of the first
`min(inputChannels, outputChannels)` channels; the MIDI destination is
ignored. -/
def FunctionAudioNode.process (outputBuffer : AudioBuffer) (midi : MidiBuffer)
    (inputBuffer : AudioBuffer) (fn : Sample → Sample) : AudioBuffer × MidiBuffer :=
  let numSamples := outputBuffer.getNumSamples
  let numChannels := min inputBuffer.getNumChannels outputBuffer.getNumChannels
  ((List.range numChannels).foldl
     (fun out c =>
       out.updChannel c
         (fun ch => listMapIdx (fun i x => if i < numSamples then fn (inputBuffer.getSample c i) else x) ch))
     outputBuffer,
   midi)

/-- `AudioNode::isReadyToProcess()` of the node at `p`: a generator is always
ready, a summing node is ready when all direct inputs have processed, a
function node when its single input has, and the stuck custom node never is. -/
def isReadyToProcess (g : AudioNode) (σ : Sched) (p : NodePath) : Bool :=
  match subNode p g with
  | some (.sin _) => true
  | some .never => false
  | some (.function _ _) => (σ (p ++ [0])).hasBeenProcessed
  | some (.summing inputs) =>
      (List.range inputs.length).all (fun i => (σ (p ++ [i])).hasBeenProcessed)
  | none => false

/-- The non-virtual `AudioNode::process()` of the node at `p`: clear the owned
audio and MIDI buffers, run the variant's virtual `process` into them (reading
the already-produced outputs of the direct inputs), then set
`hasBeenProcessed`. -/
def runNode (g : AudioNode) (σ : Sched) (p : NodePath) : Sched :=
  match subNode p g with
  | none => σ
  | some n =>
    let st := σ p
    let cleared := st.audioBuffer.clear
    match n with
    | .sin gen =>
        let r := SinAudioNode.process cleared [] gen st.oscPos
        updateAt σ p ⟨true, r.1, r.2.1, r.2.2, st.processCount + 1⟩
    | .summing inputs =>
        let bufs := (List.range inputs.length).map (fun i => (σ (p ++ [i])).audioBuffer)
        let r := SummingAudioNode.process cleared [] bufs
        updateAt σ p ⟨true, r.1, r.2, st.oscPos, st.processCount + 1⟩
    | .function _ fn =>
        let r := FunctionAudioNode.process cleared [] (σ (p ++ [0])).audioBuffer fn
        updateAt σ p ⟨true, r.1, r.2, st.oscPos, st.processCount + 1⟩
    | .never =>
        updateAt σ p ⟨true, cleared, [], st.oscPos, st.processCount + 1⟩

/-- One pass of the inner `for (auto node : allNodes)` loop of
`AudioNodeProcessor::process`, threading the `processedAnyNodes` flag. -/
def passStep (g : AudioNode) : List NodePath → Sched → Bool → Sched × Bool
  | [], σ, progressed => (σ, progressed)
  | p :: rest, σ, progressed =>
      if !(σ p).hasBeenProcessed && isReadyToProcess g σ p then
        passStep g rest (runNode g σ p) true
      else
        passStep g rest σ progressed

/-- `AudioNodeProcessor::copyAudioBuffer`: overwrite the first
`min(destChannels, sourceChannels)` destination channels with the source. -/
def copyAudioBuffer (dest source : AudioBuffer) : AudioBuffer :=
  let numSamples := dest.getNumSamples
  let numChannels := min dest.getNumChannels source.getNumChannels
  (List.range numChannels).foldl (fun d i => d.copyFrom i source i numSamples) dest

/-- The `for (;;)` fixed-point loop of `AudioNodeProcessor::process`, with
explicit fuel: `none` means the loop is still running after `fuel` passes
(the C++ loop has no pass ceiling).  When a pass makes no progress the loop
copies the root's audio output into the caller's buffer and breaks. -/
def processLoop (g : AudioNode) (ns : List NodePath) :
    Nat → Sched → AudioBuffer → Option (Sched × AudioBuffer)
  | 0, _, _ => none
  | fuel + 1, σ, audioDest =>
      let r := passStep g ns σ false
      if r.2 then processLoop g ns fuel r.1 audioDest
      else some (r.1, copyAudioBuffer audioDest ((r.1 []).audioBuffer))

/-- The `prepareForNextBlock` loop at the top of
`AudioNodeProcessor::process`: reset every scheduled node's processed flag
(and the ghost call counter, whose scope is one block). -/
def prepareForNextBlockAll (ns : List NodePath) (σ : Sched) : Sched :=
  ns.foldl (fun s p => updateAt s p ⟨false, (s p).audioBuffer, (s p).midiBuffer, (s p).oscPos, 0⟩) σ

/-- `AudioNodeProcessor::process(audio, midi)`: reset all flags, run the
fixed-point loop, and hand back the caller's MIDI buffer, which no code path
ever writes to (MIDI propagation is a TODO in the source). -/
def AudioNodeProcessor.process (g : AudioNode) (σ : Sched) (audioDest : AudioBuffer)
    (midiDest : MidiBuffer) (fuel : Nat) : Option (Sched × AudioBuffer × MidiBuffer) :=
  let ns := allNodes g
  let σ0 := prepareForNextBlockAll ns σ
  (processLoop g ns fuel σ0 audioDest).map (fun r => (r.1, r.2, midiDest))

/-- `AudioNode::initialise` + `prepareToPlay` as issued by
`AudioNodeProcessor::prepareToPlay`: size each scheduled node's audio buffer
from its declared properties and reset the oscillator state. -/
def AudioNodeProcessor.prepareToPlay (g : AudioNode) (σ : Sched) (blockSize : Nat) : Sched :=
  (allNodes g).foldl
    (fun s p =>
      match subNode p g with
      | some n =>
          updateAt s p ⟨(s p).hasBeenProcessed,
            AudioBuffer.setSize n.getAudioNodeProperties.numberOfChannels blockSize,
            (s p).midiBuffer, 0, (s p).processCount⟩
      | none => s)
    σ

mutual
/-- Induction principle for `AudioNode` that hands the summing case the
induction hypothesis for every member of its input list. -/
theorem AudioNode.recProp {P : AudioNode → Prop}
    (hsin : ∀ gen, P (.sin gen)) (hnever : P .never)
    (hfun : ∀ input fn, P input → P (.function input fn))
    (hsum : ∀ inputs, (∀ c, c ∈ inputs → P c) → P (.summing inputs)) :
    ∀ n, P n
  | .sin g => hsin g
  | .never => hnever
  | .function input fn => hfun input fn (AudioNode.recProp hsin hnever hfun hsum input)
  | .summing inputs => hsum inputs (fun c hc =>
      AudioNode.recPropList hsin hnever hfun hsum inputs c hc)
/-- List form of `AudioNode.recProp`. -/
theorem AudioNode.recPropList {P : AudioNode → Prop}
    (hsin : ∀ gen, P (.sin gen)) (hnever : P .never)
    (hfun : ∀ input fn, P input → P (.function input fn))
    (hsum : ∀ inputs, (∀ c, c ∈ inputs → P c) → P (.summing inputs)) :
    ∀ l : List AudioNode, ∀ c, c ∈ l → P c
  | x :: rest, c, hx =>
      match List.mem_cons.mp hx with
      | Or.inl h => h.symm ▸ AudioNode.recProp hsin hnever hfun hsum x
      | Or.inr h => AudioNode.recPropList hsin hnever hfun hsum rest c h
end

/-- Looking up one step deeper in the tree. -/
theorem subNode_append (p : NodePath) (i : Nat) :
    ∀ (g n c : AudioNode), subNode p g = some n → n.children[i]? = some c →
      subNode (p ++ [i]) g = some c := by
  induction p with
  | nil =>
      intro g n c h1 h2
      obtain rfl : g = n := by simpa [subNode] using h1
      simp [subNode, h2]
  | cons j p ih =>
      intro g n c h1 h2
      simp only [subNode] at h1 ⊢
      match hg : g.children[j]? with
      | some d =>
          rw [hg] at h1
          exact ih d n c h1 h2
      | none => rw [hg] at h1; exact absurd h1 (by simp)

/-- Rewriting a path that goes through child `i`. -/
theorem append_cons_path (base : NodePath) (i : Nat) (r : List Nat) :
    base ++ i :: r = (base ++ [i]) ++ r := by simp

/-- The three traversal facts proved by induction: every emitted pointer is a
strict descendant of `base` (with its lookup), the emitted list has no
duplicates, and every strict descendant is emitted. -/
def TravOK (n : AudioNode) : Prop := ∀ base : NodePath,
  (∀ p ∈ getAllInputNodes n base, ∃ i r m, p = base ++ i :: r ∧ subNode (i :: r) n = some m)
  ∧ (getAllInputNodes n base).Nodup
  ∧ (∀ q m, subNode q n = some m → q ≠ [] → base ++ q ∈ getAllInputNodes n base)

/-- List-level version of `TravOK` for the loop in
`SummingAudioNode::getAllInputNodes`, with child index offset `k`. -/
def TravListOK (base : NodePath) (l : List AudioNode) (k : Nat) : Prop :=
  (∀ p ∈ getAllInputNodesList l base k,
      ∃ i r c m, p = base ++ i :: r ∧ k ≤ i ∧ l[i - k]? = some c ∧ subNode r c = some m)
  ∧ (getAllInputNodesList l base k).Nodup
  ∧ (∀ j c, l[j]? = some c → ∀ p m, subNode p c = some m →
      base ++ (k + j) :: p ∈ getAllInputNodesList l base k)

theorem travOK_sin (gen : Nat → Sample) : TravOK (.sin gen) := by
  intro base
  refine ⟨?_, ?_, ?_⟩
  · intro p hp
    simp [getAllInputNodes] at hp
  · simp [getAllInputNodes]
  · intro q m h hne
    cases q with
    | nil => exact absurd rfl hne
    | cons i r => simp [subNode, AudioNode.children] at h

theorem travOK_never : TravOK .never := by
  intro base
  refine ⟨?_, ?_, ?_⟩
  · intro p hp
    simp [getAllInputNodes] at hp
  · simp [getAllInputNodes]
  · intro q m h hne
    cases q with
    | nil => exact absurd rfl hne
    | cons i r => simp [subNode, AudioNode.children] at h

theorem travOK_function (input : AudioNode) (fn : Sample → Sample)
    (hIH : TravOK input) : TravOK (.function input fn) := by
  intro base
  obtain ⟨hS, hN, hC⟩ := hIH (base ++ [0])
  refine ⟨?_, ?_, ?_⟩
  · intro p hp
    simp only [getAllInputNodes, List.mem_cons] at hp
    rcases hp with heq | hp
    · subst heq
      exact ⟨0, [], input, rfl, by simp [subNode, AudioNode.children]⟩
    · obtain ⟨i, r, m, heq, hsub⟩ := hS p hp
      subst heq
      refine ⟨0, i :: r, m, by simp, ?_⟩
      simpa [subNode, AudioNode.children] using hsub
  · rw [getAllInputNodes]
    refine List.Nodup.cons ?_ hN
    intro hmem
    obtain ⟨i, r, m, heq, _⟩ := hS _ hmem
    have hlen : (base ++ [0]).length = ((base ++ [0]) ++ i :: r).length := by rw [← heq]
    simp at hlen
  · intro q m h hne
    cases q with
    | nil => exact absurd rfl hne
    | cons i r =>
        simp only [subNode, AudioNode.children] at h
        match hi : ([input] : List AudioNode)[i]?, h with
        | some c, h =>
            have hi0 : i = 0 := by
              cases i with
              | zero => rfl
              | succ j => simp at hi
            subst hi0
            have hcy : input = c := by simpa using hi
            subst hcy
            rw [getAllInputNodes]
            cases r with
            | nil => simp
            | cons a r' =>
                right
                have hmem := hC (a :: r') m h (by simp)
                rw [append_cons_path]
                exact hmem
        | none, h => exact absurd h (by simp)

theorem travListOK_of (base : NodePath) :
    ∀ (l : List AudioNode) (k : Nat), (∀ c, c ∈ l → TravOK c) → TravListOK base l k := by
  intro l
  induction l with
  | nil =>
      intro k _
      refine ⟨?_, ?_, ?_⟩
      · intro p hp; simp [getAllInputNodesList] at hp
      · simp [getAllInputNodesList]
      · intro j c h; simp at h
  | cons c0 rest ih =>
      intro k hall
      have h0 : TravOK c0 := hall c0 (by simp)
      obtain ⟨hS0, hN0, hC0⟩ := h0 (base ++ [k])
      obtain ⟨hSr, hNr, hCr⟩ := ih (k + 1) (fun c hc => hall c (List.mem_cons_of_mem _ hc))
      refine ⟨?_, ?_, ?_⟩
      · -- soundness
        intro p hp
        simp only [getAllInputNodesList, List.mem_append, List.mem_cons] at hp
        rcases hp with (heq | hp) | hp
        · subst heq
          exact ⟨k, [], c0, c0, by simp, le_refl k, by simp, rfl⟩
        · obtain ⟨i, r, m, heq, hsub⟩ := hS0 p hp
          subst heq
          refine ⟨k, i :: r, c0, m, by simp, le_refl k, by simp, hsub⟩
        · obtain ⟨i, r, c, m, heq, hki, hget, hsub⟩ := hSr p hp
          subst heq
          refine ⟨i, r, c, m, rfl, by omega, ?_, hsub⟩
          have harith : i - k = (i - (k + 1)) + 1 := by omega
          rw [harith]
          simpa using hget
      · -- nodup
        rw [getAllInputNodesList]
        refine List.Nodup.append ?_ hNr ?_
        · refine List.Nodup.cons ?_ hN0
          intro hmem
          obtain ⟨i, r, m, heq, _⟩ := hS0 _ hmem
          have hlen : (base ++ [k]).length = ((base ++ [k]) ++ i :: r).length := by rw [← heq]
          simp at hlen
        · intro a ha hb
          have haform : ∃ t : List Nat, a = base ++ k :: t := by
            rcases List.mem_cons.mp ha with heq | ha2
            · exact ⟨[], by simp [heq]⟩
            · obtain ⟨i, r, m, heq, _⟩ := hS0 _ ha2
              exact ⟨i :: r, by simp [heq]⟩
          obtain ⟨i, r, c, m, heqb, hki, _, _⟩ := hSr _ hb
          obtain ⟨t, ht⟩ := haform
          have hcons : k :: t = i :: r := by
            apply List.append_cancel_left
            rw [← ht, ← heqb]
          have hki2 : k = i ∧ t = r := by simpa using hcons
          omega
      · -- completeness
        intro j c h p m hsub
        rw [getAllInputNodesList]
        cases j with
        | zero =>
            have hcc : c0 = c := by simpa using h
            subst hcc
            cases p with
            | nil => simp
            | cons a p' =>
                apply List.mem_append_left
                right
                have hmem := hC0 (a :: p') m hsub (by simp)
                rw [show base ++ (k + 0) :: a :: p' = (base ++ [k]) ++ a :: p' by simp]
                exact hmem
        | succ j' =>
            apply List.mem_append_right
            have hmem := hCr j' c (by simpa using h) p m hsub
            have harith : k + (j' + 1) = k + 1 + j' := by omega
            rw [harith]
            exact hmem

theorem travOK_summing (inputs : List AudioNode)
    (hIH : ∀ c, c ∈ inputs → TravOK c) : TravOK (.summing inputs) := by
  intro base
  obtain ⟨hS, hN, hC⟩ := travListOK_of base inputs 0 hIH
  refine ⟨?_, ?_, ?_⟩
  · intro p hp
    rw [getAllInputNodes] at hp
    obtain ⟨i, r, c, m, heq, _, hget, hsub⟩ := hS p hp
    subst heq
    refine ⟨i, r, m, rfl, ?_⟩
    simp only [subNode, AudioNode.children]
    rw [show inputs[i]? = some c by simpa using hget]
    exact hsub
  · rw [getAllInputNodes]; exact hN
  · intro q m h hne
    cases q with
    | nil => exact absurd rfl hne
    | cons i r =>
        simp only [subNode, AudioNode.children] at h
        match hi : inputs[i]?, h with
        | some c, h =>
            rw [getAllInputNodes]
            have hmem := hC i c hi r m h
            simpa using hmem
        | none, h => exact absurd h (by simp)

/-- Every node satisfies the traversal specification. -/
theorem travOK (n : AudioNode) : TravOK n :=
  AudioNode.recProp travOK_sin travOK_never travOK_function travOK_summing n

/-- On an input with no consecutive (indeed no) duplicates, `unique_copy`'s
scan copies everything. -/
theorem uniqueCopyAux_eq_of_nodup :
    ∀ (last : NodePath) (l : List NodePath), (last :: l).Nodup → uniqueCopyAux last l = l
  | _, [], _ => rfl
  | last, y :: rest, h => by
      have hne : y ≠ last := by
        have : last ∉ y :: rest := (List.nodup_cons.mp h).1
        intro hy
        exact this (by simp [hy])
      rw [uniqueCopyAux, if_neg hne,
        uniqueCopyAux_eq_of_nodup y rest (List.nodup_cons.mp h).2]

/-- `std::unique_copy` is the identity on duplicate-free input. -/
theorem uniqueCopy_eq_of_nodup :
    ∀ l : List NodePath, l.Nodup → uniqueCopy l = l
  | [], _ => rfl
  | x :: rest, h => by
      rw [uniqueCopy, uniqueCopyAux_eq_of_nodup x rest h]

/-- The raw pointer list built in the processor's constructor
(`getAllInputNodes()` of the root followed by the root itself) never holds
two equal pointers: ownership through `std::unique_ptr` makes the graph a
tree, so the pre-`unique_copy` traversal is already duplicate-free. -/
theorem rawNodes_nodup (g : AudioNode) : (getAllInputNodes g [] ++ [[]]).Nodup := by
  obtain ⟨hS, hN, _⟩ := travOK g []
  refine List.Nodup.append hN (by simp) ?_
  intro a ha hb
  obtain ⟨i, r, m, heq, _⟩ := hS a ha
  have : a = i :: r := by simpa using heq
  simp [this] at hb

/-- `unique_copy` therefore changes nothing: the scheduling list is exactly
the traversal order (inputs in first-seen order, root last). -/
theorem allNodes_eq (g : AudioNode) : allNodes g = getAllInputNodes g [] ++ [[]] :=
  uniqueCopy_eq_of_nodup _ (rawNodes_nodup g)

/-- The scheduling list contains exactly the positions of the tree. -/
theorem mem_allNodes (g : AudioNode) (p : NodePath) :
    p ∈ allNodes g ↔ (subNode p g).isSome := by
  rw [allNodes_eq]
  obtain ⟨hS, _, hC⟩ := travOK g []
  constructor
  · intro hmem
    rcases List.mem_append.mp hmem with hmem | hmem
    · obtain ⟨i, r, m, heq, hsub⟩ := hS p hmem
      have hp : p = i :: r := by simpa using heq
      rw [hp, hsub]
      rfl
    · have hp : p = [] := by simpa using hmem
      rw [hp]
      rfl
  · intro hsome
    obtain ⟨m, hm⟩ := Option.isSome_iff_exists.mp hsome
    cases p with
    | nil => simp
    | cons i r =>
        apply List.mem_append_left
        have := hC (i :: r) m hm (by simp)
        simpa using this

/-- C1: the flat scheduling list built in `AudioNodeProcessor`'s constructor
contains no duplicate node identities, consists of the root plus every
transitively reachable input, and preserves first-seen order (it is exactly
the discovery-ordered traversal: the root's `getAllInputNodes()` followed by
the root).  Node identity is a node's position in the `unique_ptr` ownership
tree, which is what distinguishes the distinct heap objects the constructor
compares by address; because ownership is unique, no two list entries can
alias one node, and `std::unique_copy` leaves the duplicate-free traversal
untouched. -/
theorem allNodes_nodup_complete (g : AudioNode) :
    (allNodes g).Nodup
    ∧ (∀ p : NodePath, p ∈ allNodes g ↔ (subNode p g).isSome)
    ∧ allNodes g = getAllInputNodes g [] ++ [[]] := by
  refine ⟨?_, mem_allNodes g, allNodes_eq g⟩
  rw [allNodes_eq]
  exact rawNodes_nodup g

/-- `AudioNode::process()` touches no other node's state. -/
theorem runNode_other (g : AudioNode) (σ : Sched) (p q : NodePath) (h : q ≠ p) :
    runNode g σ p q = σ q := by
  unfold runNode
  cases hsub : subNode p g with
  | none => rfl
  | some n => cases n <;> simp [updateAt, h]

/-- `AudioNode::process()` sets the node's own `hasBeenProcessed` flag and
bumps its (ghost) call counter. -/
theorem runNode_self (g : AudioNode) (σ : Sched) (p : NodePath) (n : AudioNode)
    (h : subNode p g = some n) :
    ((runNode g σ p) p).hasBeenProcessed = true
    ∧ ((runNode g σ p) p).processCount = (σ p).processCount + 1 := by
  unfold runNode
  rw [h]
  cases n <;> simp [updateAt]

/-- The processed flag never goes back from `true` during a node run. -/
theorem runNode_flag_mono (g : AudioNode) (σ : Sched) (p q : NodePath)
    (h : (σ q).hasBeenProcessed = true) : ((runNode g σ p) q).hasBeenProcessed = true := by
  by_cases hq : q = p
  · subst hq
    cases hsub : subNode q g with
    | none => unfold runNode; rw [hsub]; exact h
    | some n => exact (runNode_self g σ q n hsub).1
  · rw [runNode_other g σ p q hq]
    exact h

/-- Once the `processedAnyNodes` flag of a pass is set it stays set. -/
theorem passStep_snd_true (g : AudioNode) :
    ∀ (l : List NodePath) (σ : Sched), (passStep g l σ true).2 = true
  | [], _ => rfl
  | p :: rest, σ => by
      rw [passStep]
      split
      · exact passStep_snd_true g rest _
      · exact passStep_snd_true g rest σ

/-- Processed flags are monotone along a pass. -/
theorem passStep_flag_mono (g : AudioNode) :
    ∀ (l : List NodePath) (σ : Sched) (b : Bool) (q : NodePath),
      (σ q).hasBeenProcessed = true → ((passStep g l σ b).1 q).hasBeenProcessed = true
  | [], _, _, _, h => h
  | p :: rest, σ, b, q, h => by
      rw [passStep]
      split
      · exact passStep_flag_mono g rest _ true q (runNode_flag_mono g σ p q h)
      · exact passStep_flag_mono g rest σ b q h

/-- A pass that reports no progress changed nothing, and every node it
visited was already processed or not ready. -/
theorem passStep_no_progress (g : AudioNode) :
    ∀ (l : List NodePath) (σ σ' : Sched), passStep g l σ false = (σ', false) →
      σ' = σ ∧ ∀ p ∈ l, (σ p).hasBeenProcessed = true ∨ isReadyToProcess g σ p = false
  | [], σ, σ', h => by
      rw [passStep] at h
      have h1 : σ = σ' := congrArg Prod.fst h
      exact ⟨h1.symm, by simp⟩
  | p :: rest, σ, σ', h => by
      rw [passStep] at h
      split at h
      · exfalso
        have htrue := passStep_snd_true g rest (runNode g σ p)
        rw [h] at htrue
        simp at htrue
      · rename_i hcond
        obtain ⟨heq, hrest⟩ := passStep_no_progress g rest σ σ' h
        refine ⟨heq, ?_⟩
        intro q hq
        rcases List.mem_cons.mp hq with rfl | hq2
        · by_cases hproc : (σ q).hasBeenProcessed = true
          · exact Or.inl hproc
          · right
            by_contra hready
            apply hcond
            simp only [Bool.and_eq_true, Bool.not_eq_true']
            exact ⟨by simpa using hproc, by simpa using hready⟩
        · exact hrest q hq2

/-- The number of still-unprocessed entries of `ns`. -/
def unprocCount (ns : List NodePath) (σ : Sched) : Nat :=
  ns.countP (fun p => !(σ p).hasBeenProcessed)

theorem countP_le_of_imp (f g : NodePath → Bool) :
    ∀ l : List NodePath, (∀ a ∈ l, g a = true → f a = true) → l.countP g ≤ l.countP f
  | [], _ => le_refl _
  | x :: rest, h => by
      rw [List.countP_cons, List.countP_cons]
      have hr := countP_le_of_imp f g rest (fun a ha => h a (List.mem_cons_of_mem _ ha))
      by_cases hx : g x = true
      · have := h x (by simp) hx
        simp [hx, this]
        omega
      · simp only [Bool.not_eq_true] at hx
        simp [hx]
        omega

theorem countP_lt_of_flip (f g : NodePath → Bool) :
    ∀ l : List NodePath, (∀ a ∈ l, g a = true → f a = true) →
      ∀ x ∈ l, g x = false → f x = true → l.countP g < l.countP f
  | [], _, x, hx, _, _ => absurd hx (by simp)
  | y :: rest, h, x, hx, hgx, hfx => by
      rw [List.countP_cons, List.countP_cons]
      have hmono := countP_le_of_imp f g rest (fun a ha => h a (List.mem_cons_of_mem _ ha))
      rcases List.mem_cons.mp hx with rfl | hx2
      · simp [hgx, hfx]
        omega
      · have hlt := countP_lt_of_flip f g rest
          (fun a ha => h a (List.mem_cons_of_mem _ ha)) x hx2 hgx hfx
        by_cases hy : g y = true
        · have := h y (by simp) hy
          simp [hy, this]
          omega
        · simp only [Bool.not_eq_true] at hy
          simp [hy]
          split
          · omega
          · omega

/-- A pass that did report progress strictly shrinks the unprocessed set. -/
theorem passStep_progress_lt (g : AudioNode) (ns : List NodePath) :
    ∀ (l : List NodePath) (σ σ' : Sched), (∀ p ∈ l, p ∈ ns) →
      passStep g l σ false = (σ', true) → unprocCount ns σ' < unprocCount ns σ
  | [], σ, σ', _, h => by
      rw [passStep] at h
      have h2 := congrArg Prod.snd h
      simp at h2
  | p :: rest, σ, σ', hsub, h => by
      rw [passStep] at h
      split at h
      · rename_i hcond
        simp only [Bool.and_eq_true, Bool.not_eq_true'] at hcond
        obtain ⟨hnotproc, hready⟩ := hcond
        have hsome : ∃ n, subNode p g = some n := by
          unfold isReadyToProcess at hready
          cases hs : subNode p g with
          | none => rw [hs] at hready; simp at hready
          | some n => exact ⟨n, rfl⟩
        obtain ⟨n, hn⟩ := hsome
        have hle : unprocCount ns σ' ≤ unprocCount ns (runNode g σ p) := by
          apply countP_le_of_imp
          intro a _ hg
          simp only [Bool.not_eq_true'] at hg ⊢
          by_contra hne
          simp only [Bool.not_eq_false] at hne
          have hpass := passStep_flag_mono g rest (runNode g σ p) true a hne
          rw [h] at hpass
          simp only [] at hpass
          simp [hpass] at hg
        have hlt : unprocCount ns (runNode g σ p) < unprocCount ns σ := by
          apply countP_lt_of_flip
          · intro a _ hg
            simp only [Bool.not_eq_true'] at hg ⊢
            by_contra hne
            simp only [Bool.not_eq_false] at hne
            have := runNode_flag_mono g σ p a hne
            rw [this] at hg
            exact absurd hg (by simp)
          · exact hsub p (by simp)
          · simp [(runNode_self g σ p n hn).1]
          · simp [hnotproc]
        omega
      · exact passStep_progress_lt g ns rest σ σ' (fun q hq => hsub q (List.mem_cons_of_mem _ hq)) h

/-- When the fixed-point loop returns, the final pass made no progress and
the returned audio is the caller's buffer overwritten from the root's output.
This holds with no assumption on the graph: the C++ loop always exits through
the `!processedAnyNodes` branch. -/
theorem processLoop_exit (g : AudioNode) (ns : List NodePath) (audioDest : AudioBuffer) :
    ∀ (fuel : Nat) (σ σf : Sched) (af : AudioBuffer),
      processLoop g ns fuel σ audioDest = some (σf, af) →
        passStep g ns σf false = (σf, false)
        ∧ af = copyAudioBuffer audioDest ((σf []).audioBuffer)
  | 0, σ, σf, af, h => by simp [processLoop] at h
  | fuel + 1, σ, σf, af, h => by
      rw [processLoop] at h
      split at h
      · exact processLoop_exit g ns audioDest fuel _ σf af h
      · rename_i hprog
        simp only [Option.some.injEq, Prod.mk.injEq] at h
        obtain ⟨h1, h2⟩ := h
        subst h1
        have hpair : passStep g ns σ false = ((passStep g ns σ false).1, false) := by
          rw [Prod.mk.injEq]
          exact ⟨rfl, by simpa using hprog⟩
        obtain ⟨heq, _⟩ := passStep_no_progress g ns σ _ hpair
        constructor
        · rw [heq]
          rw [heq] at hpair
          exact hpair
        · exact h2.symm

/-- The loop terminates once the fuel exceeds the number of unprocessed
nodes: every progressing pass strictly shrinks that number. -/
theorem processLoop_term (g : AudioNode) (ns : List NodePath) (audioDest : AudioBuffer) :
    ∀ (fuel : Nat) (σ : Sched), unprocCount ns σ < fuel →
      (processLoop g ns fuel σ audioDest).isSome = true
  | 0, σ, h => absurd h (by omega)
  | fuel + 1, σ, h => by
      rw [processLoop]
      split
      · rename_i hprog
        apply processLoop_term g ns audioDest fuel
        have hpair : passStep g ns σ false = ((passStep g ns σ false).1, true) := by
          rw [Prod.mk.injEq]
          exact ⟨rfl, by simpa using hprog⟩
        have := passStep_progress_lt g ns ns σ _ (fun q hq => hq) hpair
        omega
      · simp

/-- The per-block invariant tying the ghost call counter to the processed
flag: a node has been `process()`ed exactly once iff its flag is up. -/
def CountInv (ns : List NodePath) (σ : Sched) : Prop :=
  ∀ p ∈ ns, (σ p).processCount = (if (σ p).hasBeenProcessed then 1 else 0)

theorem countInv_runNode (g : AudioNode) (ns : List NodePath) (σ : Sched) (p : NodePath)
    (hp : p ∈ ns) (hflag : (σ p).hasBeenProcessed = false)
    (hinv : CountInv ns σ) : CountInv ns (runNode g σ p) := by
  intro q hq
  by_cases hqp : q = p
  · subst hqp
    cases hsub : subNode q g with
    | none => unfold runNode; rw [hsub]; exact hinv q hq
    | some n =>
        obtain ⟨h1, h2⟩ := runNode_self g σ q n hsub
        rw [h1, h2, hinv q hq, hflag]
        simp
  · rw [runNode_other g σ p q hqp]
    exact hinv q hq

theorem countInv_passStep (g : AudioNode) (ns : List NodePath) :
    ∀ (l : List NodePath) (σ : Sched) (b : Bool), (∀ p ∈ l, p ∈ ns) →
      CountInv ns σ → CountInv ns (passStep g l σ b).1
  | [], σ, b, _, hinv => hinv
  | p :: rest, σ, b, hsub, hinv => by
      rw [passStep]
      split
      · rename_i hcond
        simp only [Bool.and_eq_true, Bool.not_eq_true'] at hcond
        exact countInv_passStep g ns rest _ true
          (fun q hq => hsub q (List.mem_cons_of_mem _ hq))
          (countInv_runNode g ns σ p (hsub p (by simp)) hcond.1 hinv)
      · exact countInv_passStep g ns rest σ b
          (fun q hq => hsub q (List.mem_cons_of_mem _ hq)) hinv

theorem countInv_processLoop (g : AudioNode) (ns : List NodePath) (audioDest : AudioBuffer) :
    ∀ (fuel : Nat) (σ σf : Sched) (af : AudioBuffer),
      CountInv ns σ → processLoop g ns fuel σ audioDest = some (σf, af) → CountInv ns σf
  | 0, σ, σf, af, _, h => by simp [processLoop] at h
  | fuel + 1, σ, σf, af, hinv, h => by
      rw [processLoop] at h
      split at h
      · exact countInv_processLoop g ns audioDest fuel _ σf af
          (countInv_passStep g ns ns σ false (fun q hq => hq) hinv) h
      · simp only [Option.some.injEq, Prod.mk.injEq] at h
        obtain ⟨h1, _⟩ := h
        subst h1
        exact countInv_passStep g ns ns σ false (fun q hq => hq) hinv

/-- `noNever` restricted to the members of an input list. -/
theorem noNeverList_mem :
    ∀ (l : List AudioNode), noNeverList l = true → ∀ c ∈ l, noNever c = true
  | [], _, c, hc => absurd hc (by simp)
  | x :: rest, h, c, hc => by
      rw [noNeverList, Bool.and_eq_true] at h
      rcases List.mem_cons.mp hc with rfl | hc2
      · exact h.1
      · exact noNeverList_mem rest h.2 c hc2

/-- If a full pass over the scheduling list finds every node processed or
unready, then — on a graph built from the three concrete variants — every
node of the tree is in fact processed.  (A deepest unprocessed node would
have all inputs processed, hence be ready, contradicting the stall.) -/
theorem stall_all_processed (g : AudioNode) (σ : Sched)
    (H : ∀ p ∈ allNodes g, (σ p).hasBeenProcessed = true ∨ isReadyToProcess g σ p = false) :
    ∀ n : AudioNode, noNever n = true →
      ∀ p, subNode p g = some n → (σ p).hasBeenProcessed = true := by
  intro n
  induction n using AudioNode.recProp with
  | hsin gen =>
      intro _ p hp
      have hmem : p ∈ allNodes g := (mem_allNodes g p).mpr (by rw [hp]; rfl)
      rcases H p hmem with hproc | hready
      · exact hproc
      · exfalso
        unfold isReadyToProcess at hready
        rw [hp] at hready
        simp at hready
  | hnever =>
      intro hno
      rw [noNever] at hno
      simp at hno
  | hfun input fn ih =>
      intro hno p hp
      have hno' : noNever input = true := by rwa [noNever] at hno
      have hchild : subNode (p ++ [0]) g = some input :=
        subNode_append p 0 g _ input hp (by simp [AudioNode.children])
      have hchildproc := ih hno' (p ++ [0]) hchild
      have hmem : p ∈ allNodes g := (mem_allNodes g p).mpr (by rw [hp]; rfl)
      rcases H p hmem with hproc | hready
      · exact hproc
      · exfalso
        unfold isReadyToProcess at hready
        rw [hp] at hready
        rw [hchildproc] at hready
        simp at hready
  | hsum inputs ih =>
      intro hno p hp
      have hno' : noNeverList inputs = true := by rwa [noNever] at hno
      have hallkids : ∀ i, i < inputs.length → (σ (p ++ [i])).hasBeenProcessed = true := by
        intro i hi
        have hget : inputs[i]? = some inputs[i] := List.getElem?_eq_getElem hi
        have hchild : subNode (p ++ [i]) g = some inputs[i] :=
          subNode_append p i g _ _ hp (by simp only [AudioNode.children]; exact hget)
        exact ih inputs[i] (List.getElem_mem hi)
          (noNeverList_mem inputs hno' _ (List.getElem_mem hi)) (p ++ [i]) hchild
      have hmem : p ∈ allNodes g := (mem_allNodes g p).mpr (by rw [hp]; rfl)
      rcases H p hmem with hproc | hready
      · exact hproc
      · exfalso
        unfold isReadyToProcess at hready
        rw [hp] at hready
        have hall : ((List.range inputs.length).all
            fun i => (σ (p ++ [i])).hasBeenProcessed) = true := by
          rw [List.all_eq_true]
          intro i hi
          exact hallkids i (List.mem_range.mp hi)
        change ((List.range inputs.length).all
            fun i => (σ (p ++ [i])).hasBeenProcessed) = false at hready
        rw [hall] at hready
        exact absurd hready (by simp)

/-- Pointwise effect of the per-block reset loop: every scheduled node's flag
(and ghost counter) is cleared, all other state survives untouched. -/
theorem prepareForNextBlockAll_eq :
    ∀ (ns : List NodePath) (σ : Sched) (q : NodePath),
      prepareForNextBlockAll ns σ q =
        if q ∈ ns then ⟨false, (σ q).audioBuffer, (σ q).midiBuffer, (σ q).oscPos, 0⟩ else σ q
  | [], σ, q => by simp [prepareForNextBlockAll]
  | p :: rest, σ, q => by
      have ih := prepareForNextBlockAll_eq rest
        (updateAt σ p ⟨false, (σ p).audioBuffer, (σ p).midiBuffer, (σ p).oscPos, 0⟩) q
      rw [prepareForNextBlockAll] at ih ⊢
      rw [List.foldl_cons]
      rw [ih]
      by_cases hqrest : q ∈ rest
      · simp only [hqrest, if_true]
        by_cases hqp : q = p
        · subst hqp
          simp [updateAt, List.mem_cons, hqrest]
        · simp [updateAt, hqp, List.mem_cons, hqrest]
      · simp only [hqrest, if_false]
        by_cases hqp : q = p
        · subst hqp
          simp [updateAt]
        · simp [updateAt, hqp, hqrest, List.mem_cons]

/-- Subtrees of a three-variant graph are three-variant graphs. -/
theorem noNever_children (g : AudioNode) (hg : noNever g = true) :
    ∀ c ∈ g.children, noNever c = true := by
  cases g with
  | sin gen => intro c hc; simp [AudioNode.children] at hc
  | never => intro c hc; simp [AudioNode.children] at hc
  | function input fn =>
      intro c hc
      have : c = input := by simpa [AudioNode.children] using hc
      subst this
      rwa [noNever] at hg
  | summing inputs =>
      intro c hc
      rw [noNever] at hg
      exact noNeverList_mem inputs hg c (by simpa [AudioNode.children] using hc)

theorem noNever_subNode :
    ∀ (p : NodePath) (g n : AudioNode), noNever g = true → subNode p g = some n →
      noNever n = true
  | [], g, n, hg, h => by
      obtain rfl : g = n := by simpa [subNode] using h
      exact hg
  | i :: p, g, n, hg, h => by
      simp only [subNode] at h
      match hc : g.children[i]?, h with
      | some c, h =>
          have hcmem : c ∈ g.children := List.getElem?_mem hc
          exact noNever_subNode p c n (noNever_children g hg c hcmem) h
      | none, h => exact absurd h (by simp)

/-- Master property of one block on a graph built from the three concrete
variants: with fuel one more than the number of nodes the loop has already
exited, every node of the tree is processed, each was run exactly once, and
the delivered audio is the root's output copied over the caller's buffer. -/
theorem process_master (g : AudioNode) (hg : noNever g = true)
    (σ : Sched) (audioDest : AudioBuffer) (midiDest : MidiBuffer) :
    ∃ σf af,
      AudioNodeProcessor.process g σ audioDest midiDest ((allNodes g).length + 1)
        = some (σf, af, midiDest)
      ∧ (∀ p, (subNode p g).isSome → (σf p).hasBeenProcessed = true)
      ∧ (∀ p, (subNode p g).isSome → (σf p).processCount = 1)
      ∧ af = copyAudioBuffer audioDest ((σf []).audioBuffer) := by
  have hcnt : unprocCount (allNodes g) (prepareForNextBlockAll (allNodes g) σ)
      < (allNodes g).length + 1 := by
    have hle : unprocCount (allNodes g) (prepareForNextBlockAll (allNodes g) σ)
        ≤ (allNodes g).length := List.countP_le_length _
    omega
  have hsome := processLoop_term g (allNodes g) audioDest ((allNodes g).length + 1)
    (prepareForNextBlockAll (allNodes g) σ) hcnt
  obtain ⟨r, hres⟩ := Option.isSome_iff_exists.mp hsome
  obtain ⟨σf, af⟩ := r
  obtain ⟨hstall, haf⟩ := processLoop_exit g (allNodes g) audioDest _ _ σf af hres
  have hH := (passStep_no_progress g (allNodes g) σf σf hstall).2
  have hallproc : ∀ p, (subNode p g).isSome → (σf p).hasBeenProcessed = true := by
    intro p hp
    obtain ⟨n, hn⟩ := Option.isSome_iff_exists.mp hp
    exact stall_all_processed g σf hH n (noNever_subNode p g n hg hn) p hn
  have hinv0 : CountInv (allNodes g) (prepareForNextBlockAll (allNodes g) σ) := by
    intro p hp
    rw [prepareForNextBlockAll_eq]
    simp [hp]
  have hinv := countInv_processLoop g (allNodes g) audioDest _ _ σf af hinv0 hres
  refine ⟨σf, af, ?_, hallproc, ?_, haf⟩
  · simp only [AudioNodeProcessor.process]
    rw [hres]
    rfl
  · intro p hp
    have hmem : p ∈ allNodes g := (mem_allNodes g p).mpr hp
    rw [hinv p hmem, hallproc p hp]
    simp

/-- C3: for every finite acyclic graph built from the generator, combiner and
transform variants, one call to `AudioNodeProcessor::process` terminates (the
fixed-point loop exits within `|allNodes| + 1` passes), and at exit every
node reachable from the root — the root included — has produced
(`hasBeenProcessed = true`). -/
theorem process_terminates_all_produced (g : AudioNode) (hg : noNever g = true)
    (σ : Sched) (audioDest : AudioBuffer) (midiDest : MidiBuffer) :
    ∃ σf af,
      AudioNodeProcessor.process g σ audioDest midiDest ((allNodes g).length + 1)
        = some (σf, af, midiDest)
      ∧ (∀ p, (subNode p g).isSome → (σf p).hasBeenProcessed = true) := by
  obtain ⟨σf, af, h1, h2, _, _⟩ := process_master g hg σ audioDest midiDest
  exact ⟨σf, af, h1, h2⟩

/-- Witness for C3 on the graph of the "sin cancelling" unit test: a summing
node over a generator and a negated generator. -/
theorem process_terminates_all_produced_witness :
    noNever (.summing [.sin (fun _ => 0),
        .function (.sin (fun _ => 0)) (fun x => -x)]) = true
    ∧ ∃ σf af,
        AudioNodeProcessor.process
          (.summing [.sin (fun _ => 0), .function (.sin (fun _ => 0)) (fun x => -x)])
          (fun _ => ⟨false, AudioBuffer.setSize 1 1, [], 0, 0⟩)
          (AudioBuffer.setSize 1 1) []
          ((allNodes (.summing [.sin (fun _ => 0),
              .function (.sin (fun _ => 0)) (fun x => -x)])).length + 1)
          = some (σf, af, [])
        ∧ (∀ p, (subNode p (.summing [.sin (fun _ => 0),
            .function (.sin (fun _ => 0)) (fun x => -x)])).isSome →
              (σf p).hasBeenProcessed = true) :=
  ⟨by decide,
   process_terminates_all_produced _ (by decide)
     (fun _ => ⟨false, AudioBuffer.setSize 1 1, [], 0, 0⟩) (AudioBuffer.setSize 1 1) []⟩

/-- C4: within one block every node's processing step runs exactly once: the
per-block reset clears every scheduled node's flag (and ghost call counter),
and when the block completes each reachable node's `process()` has been
invoked exactly once — the `!hasProcessed()` guard makes a second invocation
impossible no matter how many parents consume the node's output. -/
theorem process_each_node_exactly_once (g : AudioNode) (hg : noNever g = true)
    (σ : Sched) (audioDest : AudioBuffer) (midiDest : MidiBuffer) :
    (∀ p ∈ allNodes g, (prepareForNextBlockAll (allNodes g) σ p).hasBeenProcessed = false
        ∧ (prepareForNextBlockAll (allNodes g) σ p).processCount = 0)
    ∧ ∃ σf af,
        AudioNodeProcessor.process g σ audioDest midiDest ((allNodes g).length + 1)
          = some (σf, af, midiDest)
        ∧ (∀ p, (subNode p g).isSome → (σf p).processCount = 1) := by
  constructor
  · intro p hp
    rw [prepareForNextBlockAll_eq]
    simp [hp]
  · obtain ⟨σf, af, h1, _, h3, _⟩ := process_master g hg σ audioDest midiDest
    exact ⟨σf, af, h1, h3⟩

/-- Witness for C4 on the "sin cancelling" test graph. -/
theorem process_each_node_exactly_once_witness :
    noNever (.summing [.sin (fun _ => 0),
        .function (.sin (fun _ => 0)) (fun x => -x)]) = true
    ∧ ((∀ p ∈ allNodes (.summing [.sin (fun _ => 0),
          .function (.sin (fun _ => 0)) (fun x => -x)]),
          (prepareForNextBlockAll
            (allNodes (.summing [.sin (fun _ => 0),
              .function (.sin (fun _ => 0)) (fun x => -x)]))
            (fun _ => ⟨false, AudioBuffer.setSize 1 1, [], 0, 0⟩) p).hasBeenProcessed = false
          ∧ (prepareForNextBlockAll
              (allNodes (.summing [.sin (fun _ => 0),
                .function (.sin (fun _ => 0)) (fun x => -x)]))
              (fun _ => ⟨false, AudioBuffer.setSize 1 1, [], 0, 0⟩) p).processCount = 0)
        ∧ ∃ σf af,
            AudioNodeProcessor.process
              (.summing [.sin (fun _ => 0), .function (.sin (fun _ => 0)) (fun x => -x)])
              (fun _ => ⟨false, AudioBuffer.setSize 1 1, [], 0, 0⟩)
              (AudioBuffer.setSize 1 1) []
              ((allNodes (.summing [.sin (fun _ => 0),
                  .function (.sin (fun _ => 0)) (fun x => -x)])).length + 1)
              = some (σf, af, [])
            ∧ (∀ p, (subNode p (.summing [.sin (fun _ => 0),
                .function (.sin (fun _ => 0)) (fun x => -x)])).isSome →
                  (σf p).processCount = 1)) :=
  ⟨by decide,
   process_each_node_exactly_once _ (by decide)
     (fun _ => ⟨false, AudioBuffer.setSize 1 1, [], 0, 0⟩) (AudioBuffer.setSize 1 1) []⟩

/-- Two buffers of identical shape: same channel count, frame count, and
per-channel storage lengths. -/
def sameShape (a b : AudioBuffer) : Prop :=
  a.getNumChannels = b.getNumChannels ∧ a.getNumSamples = b.getNumSamples
  ∧ ∀ j, (a.channels.getD j []).length = (b.channels.getD j []).length

theorem sameShape_refl (b : AudioBuffer) : sameShape b b :=
  ⟨rfl, rfl, fun _ => rfl⟩

theorem sameShape_trans {a b c : AudioBuffer} (h1 : sameShape a b) (h2 : sameShape b c) :
    sameShape a c :=
  ⟨h1.1.trans h2.1, h1.2.1.trans h2.2.1, fun j => (h1.2.2 j).trans (h2.2.2 j)⟩

theorem sameShape_updChannel (b : AudioBuffer) (c : Nat) (f : List Sample → List Sample)
    (hf : ∀ ch, (f ch).length = ch.length) : sameShape (b.updChannel c f) b :=
  ⟨AudioBuffer.getNumChannels_updChannel b c f, rfl,
   AudioBuffer.length_getD_updChannel b c f hf⟩

theorem sameShape_clear (b : AudioBuffer) : sameShape b.clear b :=
  ⟨AudioBuffer.getNumChannels_clear b, rfl, AudioBuffer.length_getD_clear b⟩

theorem sameShape_foldl {ι : Type} (step : AudioBuffer → ι → AudioBuffer)
    (hstep : ∀ b i, sameShape (step b i) b) :
    ∀ (l : List ι) (d : AudioBuffer), sameShape (l.foldl step d) d
  | [], d => sameShape_refl d
  | x :: rest, d =>
      sameShape_trans (sameShape_foldl step hstep rest (step d x)) (hstep d x)

theorem sameShape_addFrom (dest src : AudioBuffer) (dc sc n : Nat) :
    sameShape (dest.addFrom dc src sc n) dest :=
  sameShape_updChannel dest dc _ (fun ch => length_listMapIdx _ ch)

theorem sameShape_copyFrom (dest src : AudioBuffer) (dc sc n : Nat) :
    sameShape (dest.copyFrom dc src sc n) dest :=
  sameShape_updChannel dest dc _ (fun ch => length_listMapIdx _ ch)

/-- Overwriting one channel sample-wise from a value stream `v`. -/
theorem getSample_overwriteChannel (b : AudioBuffer) (c0 : Nat) (v : Nat → Sample)
    (n c s : Nat) (hs : s < (b.channels.getD c []).length) :
    (b.updChannel c0 (fun ch => listMapIdx (fun j x => if j < n then v j else x) ch)).getSample c s
      = if c = c0 ∧ s < n then v s else b.getSample c s := by
  have hcl := AudioBuffer.lt_getNumChannels_of_sample b c s hs
  rw [AudioBuffer.getSample_updChannel]
  by_cases hc : c = c0
  · subst hc
    simp only [hcl, and_self, if_true, and_true, eq_self_iff_true, true_and,
      getD_listMapIdx, hs, if_true]
    by_cases hn : s < n
    · simp [hn]
    · simp [hn, AudioBuffer.getSample]
  · simp [hc]

/-- Channels at or beyond `k` survive a fold of single-channel writes over
`List.range k` unchanged. -/
theorem getD_range_fold_untouched (step : AudioBuffer → Nat → AudioBuffer)
    (hstep : ∀ b i j, j ≠ i → (step b i).channels.getD j [] = b.channels.getD j []) :
    ∀ (k : Nat) (d : AudioBuffer) (c : Nat), k ≤ c →
      ((List.range k).foldl step d).channels.getD c [] = d.channels.getD c []
  | 0, d, c, _ => rfl
  | k + 1, d, c, hc => by
      rw [List.range_succ, List.foldl_append, List.foldl_cons, List.foldl_nil]
      rw [hstep _ k c (by omega)]
      exact getD_range_fold_untouched step hstep k d c (by omega)

/-- The inner loop of `SummingAudioNode::process` for one input buffer:
channels `0 .. k-1` accumulate the input, the rest are untouched. -/
theorem getSample_add_fold (src : AudioBuffer) (n : Nat) :
    ∀ (k : Nat) (d : AudioBuffer) (c s : Nat),
      s < (d.channels.getD c []).length → s < n →
      ((List.range k).foldl (fun d3 i => d3.addFrom i src i n) d).getSample c s
        = d.getSample c s + (if c < k then src.getSample c s else 0)
  | 0, d, c, s, _, _ => by simp
  | k + 1, d, c, s, hs, hn => by
      rw [List.range_succ, List.foldl_append, List.foldl_cons, List.foldl_nil]
      have hshape := sameShape_foldl (fun d3 i => d3.addFrom i src i n)
        (fun b i => sameShape_addFrom b src i i n) (List.range k) d
      have hs' : s < ((((List.range k).foldl (fun d3 i => d3.addFrom i src i n) d)).channels.getD c []).length := by
        rw [hshape.2.2 c]
        exact hs
      rw [AudioBuffer.getSample_addFrom _ src k k n c s hs']
      rw [getSample_add_fold src n k d c s hs hn]
      by_cases hck : c < k
      · have hcne : ¬(c = k ∧ s < n) := by omega
        simp only [hcne, if_neg, hck, if_pos]
        simp [show c < k + 1 by omega]
      · by_cases hceq : c = k
        · subst hceq
          simp [hn, show c < c + 1 by omega, hck]
        · have : ¬c < k + 1 := by omega
          simp [hck, hceq, this]

/-- The channel loop of `FunctionAudioNode::process`: channels `0 .. k-1`
hold the transformed input, the rest are untouched. -/
theorem getSample_fn_fold (inBuf : AudioBuffer) (fn : Sample → Sample) (n : Nat) :
    ∀ (k : Nat) (out : AudioBuffer) (c s : Nat),
      s < (out.channels.getD c []).length → s < n →
      ((List.range k).foldl
        (fun o i => o.updChannel i
          (fun ch => listMapIdx (fun j x => if j < n then fn (inBuf.getSample i j) else x) ch))
        out).getSample c s
        = if c < k then fn (inBuf.getSample c s) else out.getSample c s
  | 0, out, c, s, _, _ => by simp
  | k + 1, out, c, s, hs, hn => by
      rw [List.range_succ, List.foldl_append, List.foldl_cons, List.foldl_nil]
      have hshape := sameShape_foldl
        (fun o i => o.updChannel i
          (fun ch => listMapIdx (fun j x => if j < n then fn (inBuf.getSample i j) else x) ch))
        (fun b i => sameShape_updChannel b i _ (fun ch => length_listMapIdx _ ch)) (List.range k) out
      have hs' : s < (((List.range k).foldl
          (fun o i => o.updChannel i
            (fun ch => listMapIdx (fun j x => if j < n then fn (inBuf.getSample i j) else x) ch))
          out).channels.getD c []).length := by
        rw [hshape.2.2 c]
        exact hs
      rw [getSample_overwriteChannel _ k _ n c s hs']
      rw [getSample_fn_fold inBuf fn n k out c s hs hn]
      by_cases hck : c < k
      · have hcne : ¬(c = k ∧ s < n) := by omega
        simp only [hcne, if_neg, hck, if_pos]
        simp [show c < k + 1 by omega]
      · by_cases hceq : c = k
        · subst hceq
          simp [hn, show c < c + 1 by omega, hck]
        · have : ¬c < k + 1 := by omega
          simp [hck, hceq, this]

/-- The channel loop of `AudioNodeProcessor::copyAudioBuffer`. -/
theorem getSample_copy_fold (src : AudioBuffer) (n : Nat) :
    ∀ (k : Nat) (d : AudioBuffer) (c s : Nat),
      s < (d.channels.getD c []).length → s < n →
      ((List.range k).foldl (fun d2 i => d2.copyFrom i src i n) d).getSample c s
        = if c < k then src.getSample c s else d.getSample c s
  | 0, d, c, s, _, _ => by simp
  | k + 1, d, c, s, hs, hn => by
      rw [List.range_succ, List.foldl_append, List.foldl_cons, List.foldl_nil]
      have hshape := sameShape_foldl (fun d2 i => d2.copyFrom i src i n)
        (fun b i => sameShape_copyFrom b src i i n) (List.range k) d
      have hs' : s < (((List.range k).foldl (fun d2 i => d2.copyFrom i src i n) d).channels.getD c []).length := by
        rw [hshape.2.2 c]
        exact hs
      rw [AudioBuffer.getSample_copyFrom _ src k k n c s hs']
      rw [getSample_copy_fold src n k d c s hs hn]
      by_cases hck : c < k
      · have hcne : ¬(c = k ∧ s < n) := by omega
        simp only [hcne, if_neg, hck, if_pos]
        simp [show c < k + 1 by omega]
      · by_cases hceq : c = k
        · subst hceq
          simp [hn, show c < c + 1 by omega, hck]
        · have : ¬c < k + 1 := by omega
          simp [hck, hceq, this]

/-- The outer loop of `SummingAudioNode::process`: each cell of the
destination accumulates the matching cell of every input that has that
channel. -/
theorem getSample_summing_fold (n : Nat) :
    ∀ (bufs : List AudioBuffer) (d : AudioBuffer) (c s : Nat),
      c < d.getNumChannels → s < (d.channels.getD c []).length → s < n →
      (bufs.foldl
        (fun d2 inputBuffer =>
          (List.range (min d2.getNumChannels inputBuffer.getNumChannels)).foldl
            (fun d3 i => d3.addFrom i inputBuffer i n) d2)
        d).getSample c s
        = d.getSample c s
          + ((bufs.filter (fun b => c < b.getNumChannels)).map (fun b => b.getSample c s)).sum
  | [], d, c, s, _, _, _ => by simp
  | b :: rest, d, c, s, hc, hs, hn => by
      rw [List.foldl_cons]
      have hshape := sameShape_foldl
        (fun d3 i => d3.addFrom i b i n)
        (fun b2 i => sameShape_addFrom b2 b i i n)
        (List.range (min d.getNumChannels b.getNumChannels)) d
      have hc1 : c < ((List.range (min d.getNumChannels b.getNumChannels)).foldl
          (fun d3 i => d3.addFrom i b i n) d).getNumChannels := by
        rw [hshape.1]
        exact hc
      have hs1 : s < (((List.range (min d.getNumChannels b.getNumChannels)).foldl
          (fun d3 i => d3.addFrom i b i n) d).channels.getD c []).length := by
        rw [hshape.2.2 c]
        exact hs
      rw [getSample_summing_fold n rest _ c s hc1 hs1 hn]
      rw [getSample_add_fold b n (min d.getNumChannels b.getNumChannels) d c s hs hn]
      by_cases hcb : c < b.getNumChannels
      · rw [List.filter_cons_of_pos (by simpa using hcb)]
        rw [if_pos (lt_min hc hcb)]
        simp only [List.map_cons, List.sum_cons]
        ring
      · rw [List.filter_cons_of_neg (by simpa using hcb)]
        have hnmin : ¬c < min d.getNumChannels b.getNumChannels := by
          rw [Nat.lt_min]
          intro hmin
          exact hcb hmin.2
        rw [if_neg hnmin]
        ring

/-- C6: `SummingAudioNode::process` writes into the destination the additive
channel-wise sum of its inputs' audio outputs: for every in-range cell
`(c, s)` the result is the previous destination cell plus the sum of channel
`c` of exactly those inputs that have a channel `c` — an input with fewer
channels than the destination contributes only to its own channel range, an
input with more channels is truncated to the destination's channel count
(`addFrom` runs for channels `0 .. min(destChannels, inputChannels) - 1`),
and the event/MIDI destination is left untouched.  (The scheduler invokes
this step only when all the node's inputs have produced, on the node's own
cleared destination buffer.) -/
theorem summing_process_additive (dest : AudioBuffer) (midi : MidiBuffer)
    (bufs : List AudioBuffer) (hwf : dest.wf) (c s : Nat)
    (hc : c < dest.getNumChannels) (hs : s < dest.getNumSamples) :
    ((SummingAudioNode.process dest midi bufs).1).getSample c s
      = dest.getSample c s
        + ((bufs.filter (fun b => c < b.getNumChannels)).map (fun b => b.getSample c s)).sum
    ∧ (SummingAudioNode.process dest midi bufs).2 = midi := by
  constructor
  · exact getSample_summing_fold dest.getNumSamples bufs dest c s hc
      (by rw [hwf c hc]; exact hs) hs
  · rfl

/-- Witness for C6: two inputs, one narrower than the destination.  Channel 0,
sample 1 of the result is `2 + (20 + 200)`. -/
theorem summing_process_additive_witness :
    (⟨2, [[1, 2], [3, 4]]⟩ : AudioBuffer).wf
    ∧ (((SummingAudioNode.process ⟨2, [[1, 2], [3, 4]]⟩ []
          ([⟨2, [[10, 20]]⟩, ⟨2, [[100, 200], [300, 400]]⟩] : List AudioBuffer)).1).getSample 0 1
        = (⟨2, [[1, 2], [3, 4]]⟩ : AudioBuffer).getSample 0 1
          + ((([⟨2, [[10, 20]]⟩, ⟨2, [[100, 200], [300, 400]]⟩] : List AudioBuffer).filter
              (fun b => 0 < b.getNumChannels)).map (fun b => b.getSample 0 1)).sum
        ∧ (SummingAudioNode.process ⟨2, [[1, 2], [3, 4]]⟩ []
            ([⟨2, [[10, 20]]⟩, ⟨2, [[100, 200], [300, 400]]⟩] : List AudioBuffer)).2 = []) :=
  ⟨by decide,
   summing_process_additive ⟨2, [[1, 2], [3, 4]]⟩ []
     ([⟨2, [[10, 20]]⟩, ⟨2, [[100, 200], [300, 400]]⟩] : List AudioBuffer)
     (by decide) 0 1 (by decide) (by decide)⟩

/-- C7: for every node and every block, the channel count, frame count and
per-channel storage lengths of the node's owned output buffer are identical
before and after its processing step (`AudioNode::process` clears and refills
the buffer but never reshapes it — the property the source asserts with
`jassert (numChannelsBeforeProcessing == audioBuffer.getNumChannels())`). -/
theorem runNode_preserves_shape (g : AudioNode) (σ : Sched) (p : NodePath) :
    sameShape ((runNode g σ p) p).audioBuffer (σ p).audioBuffer := by
  unfold runNode
  cases hsub : subNode p g with
  | none => exact sameShape_refl _
  | some n =>
      cases n with
      | sin gen =>
          simp only [updateAt]
          simp only [if_true]
          exact sameShape_trans
            (sameShape_updChannel _ 0 _ (fun ch => length_listMapIdx _ ch))
            (sameShape_clear _)
      | summing inputs =>
          simp only [updateAt]
          simp only [if_true]
          refine sameShape_trans ?_ (sameShape_clear _)
          exact sameShape_foldl _
            (fun b inputBuffer => sameShape_foldl _
              (fun b2 i => sameShape_addFrom b2 inputBuffer i i _) _ b) _ _
      | function input fn =>
          simp only [updateAt]
          simp only [if_true]
          refine sameShape_trans ?_ (sameShape_clear _)
          exact sameShape_foldl _
            (fun b i => sameShape_updChannel b i _ (fun ch => length_listMapIdx _ ch)) _ _
      | never =>
          simp only [updateAt]
          simp only [if_true]
          exact sameShape_clear _

/-- C8: `FunctionAudioNode::process` applies the supplied pure per-sample
function independently to every sample of every channel, for exactly
`min(inputChannels, destChannels)` channels; channels beyond that range and
the channel count itself are unchanged, and the event/MIDI destination is
never touched. -/
theorem function_process_pointwise (out : AudioBuffer) (midi : MidiBuffer)
    (inBuf : AudioBuffer) (fn : Sample → Sample) (hwf : out.wf) :
    (∀ c s, c < min inBuf.getNumChannels out.getNumChannels → s < out.getNumSamples →
      ((FunctionAudioNode.process out midi inBuf fn).1).getSample c s
        = fn (inBuf.getSample c s))
    ∧ (∀ c, min inBuf.getNumChannels out.getNumChannels ≤ c →
      ((FunctionAudioNode.process out midi inBuf fn).1).channels.getD c []
        = out.channels.getD c [])
    ∧ ((FunctionAudioNode.process out midi inBuf fn).1).getNumChannels = out.getNumChannels
    ∧ (FunctionAudioNode.process out midi inBuf fn).2 = midi := by
  refine ⟨?_, ?_, ?_, rfl⟩
  · intro c s hc hsamp
    have hcout : c < out.getNumChannels := lt_of_lt_of_le hc (min_le_right _ _)
    have hs : s < (out.channels.getD c []).length := by rw [hwf c hcout]; exact hsamp
    have hfold := getSample_fn_fold inBuf fn out.getNumSamples
      (min inBuf.getNumChannels out.getNumChannels) out c s hs hsamp
    rw [if_pos hc] at hfold
    exact hfold
  · intro c hcge
    exact getD_range_fold_untouched _
      (fun b i j hj => AudioBuffer.getD_channels_updChannel_ne b i _ j hj) _ out c hcge
  · exact (sameShape_foldl _
      (fun b i => sameShape_updChannel b i _ (fun ch => length_listMapIdx _ ch)) _ out).1

/-- Witness for C8: a single-channel input transformed by `x + 1` into a
two-channel destination (only channel 0 is written). -/
theorem function_process_pointwise_witness :
    (⟨2, [[0, 0], [5, 6]]⟩ : AudioBuffer).wf
    ∧ ((∀ c s,
          c < min (⟨2, [[3, 4]]⟩ : AudioBuffer).getNumChannels
              (⟨2, [[0, 0], [5, 6]]⟩ : AudioBuffer).getNumChannels →
          s < (⟨2, [[0, 0], [5, 6]]⟩ : AudioBuffer).getNumSamples →
          ((FunctionAudioNode.process ⟨2, [[0, 0], [5, 6]]⟩ [] ⟨2, [[3, 4]]⟩
              (fun x => x + 1)).1).getSample c s
            = (⟨2, [[3, 4]]⟩ : AudioBuffer).getSample c s + 1)
        ∧ (∀ c, min (⟨2, [[3, 4]]⟩ : AudioBuffer).getNumChannels
              (⟨2, [[0, 0], [5, 6]]⟩ : AudioBuffer).getNumChannels ≤ c →
          ((FunctionAudioNode.process ⟨2, [[0, 0], [5, 6]]⟩ [] ⟨2, [[3, 4]]⟩
              (fun x => x + 1)).1).channels.getD c []
            = (⟨2, [[0, 0], [5, 6]]⟩ : AudioBuffer).channels.getD c [])
        ∧ ((FunctionAudioNode.process ⟨2, [[0, 0], [5, 6]]⟩ [] ⟨2, [[3, 4]]⟩
            (fun x => x + 1)).1).getNumChannels
          = (⟨2, [[0, 0], [5, 6]]⟩ : AudioBuffer).getNumChannels
        ∧ (FunctionAudioNode.process ⟨2, [[0, 0], [5, 6]]⟩ [] ⟨2, [[3, 4]]⟩
            (fun x => x + 1)).2 = []) :=
  ⟨by decide,
   function_process_pointwise ⟨2, [[0, 0], [5, 6]]⟩ [] ⟨2, [[3, 4]]⟩
     (fun x => x + 1) (by decide)⟩

/-- Whatever happens inside the loop, a completed block hands back exactly
`copyAudioBuffer(callerAudio, rootOutput)` and the caller's own MIDI buffer. -/
theorem process_output (g : AudioNode) (σ : Sched) (audioD : AudioBuffer)
    (midiD : MidiBuffer) (fuel : Nat) (σf : Sched) (af : AudioBuffer) (mf : MidiBuffer)
    (h : AudioNodeProcessor.process g σ audioD midiD fuel = some (σf, af, mf)) :
    af = copyAudioBuffer audioD ((σf []).audioBuffer) ∧ mf = midiD := by
  simp only [AudioNodeProcessor.process] at h
  cases hr : processLoop g (allNodes g) fuel (prepareForNextBlockAll (allNodes g) σ) audioD with
  | none => rw [hr] at h; simp at h
  | some r =>
      obtain ⟨σ1, a1⟩ := r
      rw [hr] at h
      have h' : (σ1, a1, midiD) = (σf, af, mf) := Option.some.inj h
      have hσ : σ1 = σf := congrArg (fun t => t.1) h'
      have ha : a1 = af := congrArg (fun t => t.2.1) h'
      have hm : midiD = mf := congrArg (fun t => t.2.2) h'
      subst hσ
      subst ha
      subst hm
      exact ⟨(processLoop_exit g (allNodes g) audioD fuel _ _ _ hr).2, rfl⟩

/-- C9: at the end of each block the processor copies the root's produced
audio into the caller-supplied destination channel-for-channel for the first
`min(destChannels, rootChannels)` channels, and every destination channel at
or beyond the root's channel count keeps exactly the contents it had before
the copy. -/
theorem copy_out_semantics (dest src : AudioBuffer) (hwf : dest.wf) :
    (∀ c s, c < min dest.getNumChannels src.getNumChannels → s < dest.getNumSamples →
        (copyAudioBuffer dest src).getSample c s = src.getSample c s)
    ∧ (∀ c, src.getNumChannels ≤ c →
        (copyAudioBuffer dest src).channels.getD c [] = dest.channels.getD c [])
    ∧ (∀ (g : AudioNode) (σ : Sched) (midiD : MidiBuffer) (fuel : Nat)
          (σf : Sched) (af : AudioBuffer) (mf : MidiBuffer),
        AudioNodeProcessor.process g σ dest midiD fuel = some (σf, af, mf) →
          af = copyAudioBuffer dest ((σf []).audioBuffer)) := by
  refine ⟨?_, ?_, ?_⟩
  · intro c s hc hs
    have hcd : c < dest.getNumChannels := lt_of_lt_of_le hc (min_le_left _ _)
    have hs' : s < (dest.channels.getD c []).length := by rw [hwf c hcd]; exact hs
    have hfold := getSample_copy_fold src dest.getNumSamples
      (min dest.getNumChannels src.getNumChannels) dest c s hs' hs
    rw [if_pos hc] at hfold
    exact hfold
  · intro c hcge
    have hle : min dest.getNumChannels src.getNumChannels ≤ c :=
      le_trans (min_le_right _ _) hcge
    exact getD_range_fold_untouched _
      (fun b i j hj => AudioBuffer.getD_channels_updChannel_ne b i _ j hj) _ dest c hle
  · intro g σ midiD fuel σf af mf h
    exact (process_output g σ dest midiD fuel σf af mf h).1

/-- Witness for C9: a two-channel destination fed from a one-channel root
output — channel 0 is overwritten, channel 1 keeps its old contents. -/
theorem copy_out_semantics_witness :
    (⟨1, [[7], [9]]⟩ : AudioBuffer).wf
    ∧ ((∀ c s, c < min (⟨1, [[7], [9]]⟩ : AudioBuffer).getNumChannels
            (⟨1, [[5]]⟩ : AudioBuffer).getNumChannels →
          s < (⟨1, [[7], [9]]⟩ : AudioBuffer).getNumSamples →
          (copyAudioBuffer ⟨1, [[7], [9]]⟩ ⟨1, [[5]]⟩).getSample c s
            = (⟨1, [[5]]⟩ : AudioBuffer).getSample c s)
        ∧ (∀ c, (⟨1, [[5]]⟩ : AudioBuffer).getNumChannels ≤ c →
          (copyAudioBuffer ⟨1, [[7], [9]]⟩ ⟨1, [[5]]⟩).channels.getD c []
            = (⟨1, [[7], [9]]⟩ : AudioBuffer).channels.getD c [])
        ∧ (∀ (g : AudioNode) (σ : Sched) (midiD : MidiBuffer) (fuel : Nat)
              (σf : Sched) (af : AudioBuffer) (mf : MidiBuffer),
            AudioNodeProcessor.process g σ ⟨1, [[7], [9]]⟩ midiD fuel = some (σf, af, mf) →
              af = copyAudioBuffer ⟨1, [[7], [9]]⟩ ((σf []).audioBuffer))) :=
  ⟨by decide, copy_out_semantics ⟨1, [[7], [9]]⟩ ⟨1, [[5]]⟩ (by decide)⟩

/-- C10: a block leaves the caller-supplied MIDI/event destination exactly as
it was: the processor's `process` ignores its `midi` argument entirely (MIDI
propagation is a `TODO` in the source), and no node variant appends to or
removes from the event destination handed to its `process`. -/
theorem midi_destination_untouched :
    (∀ (g : AudioNode) (σ : Sched) (audioD : AudioBuffer) (midiD : MidiBuffer) (fuel : Nat),
        (AudioNodeProcessor.process g σ audioD midiD fuel).map (fun r => r.2.2)
          = (AudioNodeProcessor.process g σ audioD midiD fuel).map (fun _ => midiD))
    ∧ (∀ (dest : AudioBuffer) (midi : MidiBuffer) (bufs : List AudioBuffer),
        (SummingAudioNode.process dest midi bufs).2 = midi)
    ∧ (∀ (out : AudioBuffer) (midi : MidiBuffer) (inBuf : AudioBuffer) (fn : Sample → Sample),
        (FunctionAudioNode.process out midi inBuf fn).2 = midi)
    ∧ (∀ (b : AudioBuffer) (midi : MidiBuffer) (gen : Nat → Sample) (pos : Nat),
        (SinAudioNode.process b midi gen pos).2.1 = midi) := by
  refine ⟨?_, fun _ _ _ => rfl, fun _ _ _ _ => rfl, fun _ _ _ _ => rfl⟩
  intro g σ audioD midiD fuel
  simp only [AudioNodeProcessor.process]
  cases hr : processLoop g (allNodes g) fuel (prepareForNextBlockAll (allNodes g) σ) audioD with
  | none => rfl
  | some r => rfl

/-- C2 (evaluation at the failing input): with a root whose
`isReadyToProcess()` never returns `true`, the first pass makes zero progress
while the root is still unproduced, and `AudioNodeProcessor::process` simply
breaks out of the loop and returns normally — fuel 1 already suffices.  No
error of any kind is surfaced; the caller's buffer (previously holding `7`)
is silently overwritten with the root's stale, never-produced buffer contents
(`5`), violating `getProcessedAudioOutput`'s own
`jassert (hasProcessed())` precondition.  This refutes the claim that a
zero-progress pass with unproduced nodes is reported as a structural error. -/
theorem stall_returns_silently :
    (AudioNodeProcessor.process .never
        (fun _ => ⟨false, ⟨1, [[5]]⟩, [], 0, 0⟩) ⟨1, [[7]]⟩ [] 1).map
      (fun r => ((r.1 []).hasBeenProcessed, (r.2.1).getSample 0 0, r.2.2))
      = some (false, 5, []) := by
  decide

/-- C5 (evaluation at the failing input): for the graph
`FunctionAudioNode(SinAudioNode)`, the `prepareToPlay` calls issued during
`AudioNodeProcessor::prepareToPlay` reach the inner sin node (position `[0]`)
twice — once directly from the processor's loop over the flat node list and
once forwarded by `FunctionAudioNode::prepareToPlay` — refuting the claim
(and the source's own doc comment "Called once before playback begins for
each node") that prepare is called exactly once per node. -/
theorem prepare_called_twice :
    (prepareCallTrace (.function (.sin (fun _ => 0)) (fun x => x))).count [0] = 2
    ∧ (prepareCallTrace (.function (.sin (fun _ => 0)) (fun x => x))).count [] = 1
    ∧ prepareCallTrace (.function (.sin (fun _ => 0)) (fun x => x)) = [[0], [], [0]] := by
  refine ⟨?_, ?_, ?_⟩ <;> decide
